import Mathlib

/-!
Shallow embedding of the signature-matching core of `web-stack-scan`
(src/tools/frameworks.ts, src/tools/analytics.ts, src/config.ts).

JS strings are embedded as Lean `String` (the scanned content is ASCII, where
JS UTF-16 indices and Lean character indices agree).  A JS `RegExp` is embedded
by its match semantics: a function returning the leftmost match (group 0 and,
for the version extractors, capture group 1).  The concrete expressions from
`config.ts` are built from a small token language evaluated with the same
leftmost-then-greedy backtracking discipline as JS regexes.
-/

namespace WSS

/-- The `ConfidenceLevel` union type `'high' | 'medium' | 'low'` from types. -/
inductive ConfidenceLevel where
  | high
  | medium
  | low
deriving DecidableEq, Repr

/-- Result of a successful JS `RegExp` match: the full matched text
(`match[0]`) and the first capture group (`match[1]`) when present. -/
structure RegexMatch where
  group0 : String
  group1 : Option String
deriving DecidableEq, Repr

/-- A JS `RegExp`, embedded by its match semantics: `exec s` returns the
leftmost match in `s`, or `none`.  `pattern.test(s)` is `(exec s).isSome` and
`s.match(pattern)` is `exec s`. -/
structure Regex where
  exec : String → Option RegexMatch

/-- JS `\w`: ASCII letters, digits and underscore. -/
def isWordChar (c : Char) : Bool :=
  c.isAlpha || c.isDigit || c == '_'

/-- JS line terminators, the characters `.` does not match. -/
def isLineTerminator (c : Char) : Bool :=
  c == '\n' || c == '\r' || c == '\u2028' || c == '\u2029'

/-- One branch of an alternation `(x|y|z)`.  The alternations in `config.ts`
are `(container|row|col-)` and `(flex|grid|p-\d|m-\d|text-\w+|bg-\w+)`, so a
branch is a literal, a literal followed by one class character (`p-\d`), or a
literal followed by a greedy class repetition (`text-\w+`). -/
inductive AltPart where
  | plain (cs : List Char)
  | thenOne (cs : List Char) (f : Char → Bool)
  | thenPlus (cs : List Char) (f : Char → Bool)

/-- Token language covering the regular-expression constructs appearing in
`config.ts`.  `strTokCI` stores its characters lowercased. -/
inductive Tok where
  | strTok (cs : List Char)            -- a literal character sequence
  | strTokCI (cs : List Char)          -- the same under the `i` flag
  | oneCh (f : Char → Bool)            -- a single-character class, `[.-]`
  | plusOf (f : Char → Bool)           -- greedy `+` over a character class
  | starOf (f : Char → Bool)           -- greedy `*` over a character class
  | optCh (c : Char)                   -- an optional character, `\.?`
  | wb                                 -- a word boundary `\b`
  | altOf (alts : List AltPart)        -- an alternation `(x|y|z)`

/-- The last character produced by consuming `consumed`, falling back to the
character preceding the whole attempt (used for `\b` tests). -/
def lastCharOf (consumed : List Char) (prev : Option Char) : Option Char :=
  match consumed.getLast? with
  | some c => some c
  | none => prev

/-- Match a token sequence at the start of `cs` (with `prev` the character
just before it), returning the number of characters consumed.  Greedy
constructs backtrack from the longest candidate downwards and alternations are
tried left to right, as in JS. -/
def matchToks : List Tok → Option Char → List Char → Option Nat
  | [], _, _ => some 0
  | .strTok p :: ts, prev, cs =>
      if p.isPrefixOf cs then
        (matchToks ts (lastCharOf p prev) (cs.drop p.length)).map (p.length + ·)
      else none
  | .strTokCI p :: ts, prev, cs =>
      let taken := cs.take p.length
      if taken.map Char.toLower == p then
        (matchToks ts (lastCharOf taken prev) (cs.drop p.length)).map (p.length + ·)
      else none
  | .oneCh f :: ts, _, cs =>
      match cs with
      | c :: rest =>
          if f c then (matchToks ts (some c) rest).map (· + 1) else none
      | [] => none
  | .plusOf f :: ts, prev, cs =>
      let m := (cs.takeWhile f).length
      ((List.range m).map (fun j => m - j)).findSome? (fun k =>
        (matchToks ts (lastCharOf (cs.take k) prev) (cs.drop k)).map (k + ·))
  | .starOf f :: ts, prev, cs =>
      let m := (cs.takeWhile f).length
      ((List.range (m + 1)).map (fun j => m - j)).findSome? (fun k =>
        (matchToks ts (lastCharOf (cs.take k) prev) (cs.drop k)).map (k + ·))
  | .optCh c :: ts, prev, cs =>
      match cs with
      | d :: rest =>
          if d == c then
            match (matchToks ts (some d) rest).map (· + 1) with
            | some n => some n
            | none => matchToks ts prev (d :: rest)
          else matchToks ts prev (d :: rest)
      | [] => matchToks ts prev []
  | .wb :: ts, prev, cs =>
      let pw := match prev with | some c => isWordChar c | none => false
      let nw := match cs with | c :: _ => isWordChar c | [] => false
      if pw != nw then matchToks ts prev cs else none
  | .altOf alts :: ts, prev, cs =>
      alts.findSome? (fun alt =>
        match alt with
        | .plain a =>
            if a.isPrefixOf cs then
              (matchToks ts (lastCharOf a prev) (cs.drop a.length)).map (a.length + ·)
            else none
        | .thenOne a f =>
            if a.isPrefixOf cs then
              match cs.drop a.length with
              | c :: rest =>
                  if f c then (matchToks ts (some c) rest).map (a.length + 1 + ·)
                  else none
              | [] => none
            else none
        | .thenPlus a f =>
            if a.isPrefixOf cs then
              let rest0 := cs.drop a.length
              let m := (rest0.takeWhile f).length
              ((List.range m).map (fun j => m - j)).findSome? (fun k =>
                (matchToks ts (lastCharOf (cs.take (a.length + k)) prev)
                    (rest0.drop k)).map (a.length + k + ·))
            else none)

/-- Search for the leftmost position where the token sequence matches,
returning the matched slice (group 0). -/
def searchFrom (toks : List Tok) : Option Char → List Char → Option (List Char)
  | prev, [] => (matchToks toks prev []).map (fun n => List.take n [])
  | prev, c :: rest =>
    match matchToks toks prev (c :: rest) with
    | some n => some ((c :: rest).take n)
    | none => searchFrom toks (some c) rest

/-- A `RegExp` whose body is the given token sequence.  Capture groups of
content-matching expressions are not tracked (`group1 := none`): no operation
of the embedded core reads them — only the dedicated version extractors use
`match[1]`, and those are built with `reGroup` below. -/
def reOfToks (toks : List Tok) : Regex :=
  ⟨fun s => (searchFrom toks none s.data).map (fun cs => ⟨String.mk cs, none⟩)⟩

/-- Search for a `RegExp` of the shape `pre(grp)post` (the shape of every
version extractor in `config.ts`), returning group 0 and group 1.  The three
parts are matched in sequence; in the concrete extractors the parts cannot
overlap (a fixed literal, then greedy digit groups, then a closing quote or
nothing), so no backtracking across the part boundaries is needed. -/
def groupAttemptAt (pre grp post : List Tok) (prev : Option Char) (cs : List Char) :
    Option RegexMatch :=
  (matchToks pre prev cs).bind (fun n1 =>
    let p1 := lastCharOf (cs.take n1) prev
    let rest1 := cs.drop n1
    (matchToks grp p1 rest1).bind (fun n2 =>
      let p2 := lastCharOf (rest1.take n2) p1
      (matchToks post p2 (rest1.drop n2)).map (fun n3 =>
        ⟨String.mk (cs.take (n1 + n2 + n3)), some (String.mk (rest1.take n2))⟩)))

/-- The leftmost-position scan for `reGroup`. -/
def searchGroupFrom (pre grp post : List Tok) : Option Char → List Char → Option RegexMatch
  | prev, [] => groupAttemptAt pre grp post prev []
  | prev, c :: rest =>
    match groupAttemptAt pre grp post prev (c :: rest) with
    | some m => some m
    | none => searchGroupFrom pre grp post (some c) rest

/-- A version-extractor `RegExp` of the shape `pre(grp)post`. -/
def reGroup (pre grp post : List Tok) : Regex :=
  ⟨fun s => searchGroupFrom pre grp post none s.data⟩

/-- JS `String.prototype.indexOf` for a substring: the first index at which
`pat` occurs in the character list, `none` standing for `-1`. -/
def idxFrom (pat : List Char) : List Char → Nat → Option Nat
  | [], i => if pat.isPrefixOf [] then some i else none
  | c :: rest, i =>
    if pat.isPrefixOf (c :: rest) then some i else idxFrom pat rest (i + 1)

/-- `content.indexOf(pattern)` on strings. -/
def strIndexOf (s pat : String) : Option Nat :=
  idxFrom pat.data s.data 0

/-- `content.includes(pattern)`: true iff `indexOf` succeeds. -/
def strContains (s pat : String) : Bool :=
  (strIndexOf s pat).isSome

/-- `content.slice(start, end)` (with `start ≤ end ≤ length` at use sites). -/
def sliceStr (s : String) (a b : Nat) : String :=
  String.mk ((s.data.drop a).take (b - a))

/-- JS `toLowerCase` (the scanned content is ASCII), character by character. -/
def strToLower (s : String) : String :=
  String.mk (s.data.map Char.toLower)

/-- JS `trim`: drop whitespace from both ends. -/
def strTrim (s : String) : String :=
  String.mk
    (((s.data.dropWhile Char.isWhitespace).reverse.dropWhile
      Char.isWhitespace).reverse)

/-- The `string | RegExp` union used for every rule in `config.ts`. -/
inductive Pattern where
  | lit (s : String)
  | re (r : Regex)

/-- `matchesPattern` from frameworks.ts / analytics.ts: substring containment
for a string rule, `pattern.test(content)` for a `RegExp` rule. -/
def matchesPattern (content : String) (p : Pattern) : Bool :=
  match p with
  | .lit s => strContains content s
  | .re r => (r.exec content).isSome

/-- `extractVersion` from frameworks.ts: apply the optional version extractor
and return capture group 1 of the first match. -/
def extractVersion (content : String) (versionP : Option Regex) : Option String :=
  match versionP with
  | none => none
  | some r =>
    match r.exec content with
    | some m => m.group1
    | none => none

/-- `findEvidence` from frameworks.ts and analytics.ts (identical code): scan
the rules in order; for the first matching rule return a `...`-wrapped window
of 20 characters of context around a literal occurrence, or group 0 of a
`RegExp` match.  `index - 20` is `Math.max(0, index - 20)` (truncated `Nat`
subtraction). -/
def findEvidence (content : String) (ps : List Pattern) : Option String :=
  match ps with
  | [] => none
  | p :: rest =>
    match p with
    | .lit pat =>
      match strIndexOf content pat with
      | some index =>
          some ("..." ++
            sliceStr content (index - 20)
              (min content.length (index + pat.length + 20)) ++ "...")
      | none => findEvidence content rest
    | .re r =>
      match r.exec content with
      | some m => some m.group0
      | none => findEvidence content rest

/-- `calculateConfidence` from frameworks.ts.  The JS number division
`matchCount / totalPatterns` is embedded as exact rational division: for the
division by a positive count, the double rounding of `m / t` can only cross
the representable thresholds `0.5` and `0.25` when `m / t` is within half an
ulp of them, which cannot happen for the catalog-sized operands involved. -/
def calculateConfidence (matchCount totalPatterns : Nat) : ConfidenceLevel :=
  let ratio : ℚ := (matchCount : ℚ) / (totalPatterns : ℚ)
  if 1 / 2 ≤ ratio ∨ 3 ≤ matchCount then .high
  else if 1 / 4 ≤ ratio ∨ 2 ≤ matchCount then .medium
  else .low

/-- `SignaturePattern` from types: one content-family signature.  The
`category` union of string literals is kept as the category string itself. -/
structure SignaturePattern where
  name : String
  patterns : List Pattern
  category : String
  versionPattern : Option Regex := none

/-- One element of a header signature's `patterns` array. -/
structure HeaderRule where
  pattern : Pattern
  technology : String
  category : String

/-- `HeaderSignature` from types. -/
structure HeaderSignature where
  header : String
  patterns : List HeaderRule

/-- `AnalyticsSignature` from types (`type` is one of
`analytics`, `tracking`, `marketing`). -/
structure AnalyticsSignature where
  name : String
  type : String
  patterns : List Pattern

/-- `DetectedTechnology` from types. -/
structure DetectedTechnology where
  name : String
  version : Option String := none
  confidence : ConfidenceLevel
  category : String
  evidence : Option String := none
deriving DecidableEq, Repr

/-- `DetectedAnalytics` from types. -/
structure DetectedAnalytics where
  name : String
  type : String
  evidence : Option String := none
deriving DecidableEq, Repr

/-- The `confidenceOrder` array `['high', 'medium', 'low']` used both by
deduplication and by the final sort. -/
def confidenceOrder : List ConfidenceLevel :=
  [.high, .medium, .low]

/-- `confidenceOrder.indexOf(c)`. -/
def confidenceIndex (c : ConfidenceLevel) : Nat :=
  confidenceOrder.indexOf c

/-- JS truthiness of an optional string, as in `!existing.version`:
`undefined` and the empty string are falsy. -/
def truthyStr : Option String → Bool
  | none => false
  | some s => s ≠ ""

/-- A JS plain object with string keys (`Record<string, string>`): an
insertion-ordered association list without duplicate keys.  `objSet` is
property assignment (update in place, or append a new key) and `objGet` is
property lookup. -/
def objSet (m : List (String × String)) (k v : String) : List (String × String) :=
  if m.any (fun p => p.1 == k) then
    m.map (fun p => if p.1 == k then (k, v) else p)
  else m ++ [(k, v)]

/-- Property lookup on a JS object embedded as an association list. -/
def objGet (m : List (String × String)) (k : String) : Option String :=
  (m.find? (fun p => p.1 == k)).map (fun p => p.2)

/-- The header-name normalisation loop of `detectFromHeaders`: rebuild the
object with every key lowercased. -/
def normalizeHeaders (headers : List (String × String)) : List (String × String) :=
  headers.foldl (fun acc kv => objSet acc (strToLower kv.1) kv.2) []

/-- The body of the `detectFromHeaders` loop for one header signature.  The
inner first-match-and-break loop over `signature.patterns` is the
first-match search `find?`; `if (!headerValue) continue` skips both a missing
header and one whose value is the (falsy) empty string. -/
def headerStep (normalized : List (String × String))
    (detected : List DetectedTechnology) (sig : HeaderSignature) :
    List DetectedTechnology :=
  match objGet normalized (strToLower sig.header) with
  | none => detected
  | some headerValue =>
    if headerValue == "" then detected
    else
      match sig.patterns.find? (fun r => matchesPattern headerValue r.pattern) with
      | some rule =>
          detected ++ [{ name := rule.technology, confidence := .high,
                         category := rule.category,
                         evidence := some (sig.header ++ ": " ++ headerValue) }]
      | none => detected

/-- `detectFromHeaders` from frameworks.ts, parametrised by the signature
catalog it reads (`headerSignatures` in the source). -/
def detectFromHeadersWith (hsigs : List HeaderSignature)
    (headers : List (String × String)) : List DetectedTechnology :=
  hsigs.foldl (headerStep (normalizeHeaders headers)) []

/-- The body of the `detectFromHtml` loop for one content signature: count
the matching rules (`matchedPatterns` is the sublist of rules that match, in
their original order), and emit one technology when the count is positive. -/
def htmlStep (html : String) (detected : List DetectedTechnology)
    (sig : SignaturePattern) : List DetectedTechnology :=
  let matchedPatterns := sig.patterns.filter (fun p => matchesPattern html p)
  let matchCount := matchedPatterns.length
  if 0 < matchCount then
    detected ++ [{ name := sig.name,
                   version := extractVersion html sig.versionPattern,
                   confidence := calculateConfidence matchCount sig.patterns.length,
                   category := sig.category,
                   evidence := findEvidence html matchedPatterns }]
  else detected

/-- `detectFromHtml` from frameworks.ts, parametrised by the signature
catalog it reads (`frameworkSignatures` in the source). -/
def detectFromHtmlWith (fsigs : List SignaturePattern) (html : String) :
    List DetectedTechnology :=
  fsigs.foldl (htmlStep html) []

/-- One step of `deduplicateTechnologies`: the `Map` keyed by `tech.name` is
rendered as its insertion-ordered list of values (every stored value's `name`
equals its key).  `Map.set` on a new key appends; on an existing key it
updates the entry in place. -/
def dedupInsert (techMap : List DetectedTechnology) (tech : DetectedTechnology) :
    List DetectedTechnology :=
  match techMap.find? (fun t => t.name == tech.name) with
  | none => techMap ++ [tech]
  | some existing =>
    let existingIndex := confidenceIndex existing.confidence
    let newIndex := confidenceIndex tech.confidence
    if newIndex < existingIndex then
      techMap.map (fun t => if t.name == tech.name then tech else t)
    else if newIndex == existingIndex && !truthyStr existing.version &&
        truthyStr tech.version then
      techMap.map (fun t => if t.name == tech.name then tech else t)
    else techMap

/-- `deduplicateTechnologies` from frameworks.ts. -/
def deduplicateTechnologies (technologies : List DetectedTechnology) :
    List DetectedTechnology :=
  technologies.foldl dedupInsert []

/-- The comparison underlying `detected.sort((a, b) => indexOf(a) - indexOf(b))`. -/
def confLe (a b : DetectedTechnology) : Prop :=
  confidenceIndex a.confidence ≤ confidenceIndex b.confidence

instance : DecidableRel confLe := fun a b =>
  inferInstanceAs (Decidable (_ ≤ _))

instance : IsTotal DetectedTechnology confLe :=
  ⟨fun a b => Nat.le_total _ _⟩

instance : IsTrans DetectedTechnology confLe :=
  ⟨fun _ _ _ => Nat.le_trans⟩

/-- The final `detected.sort(...)`: `Array.prototype.sort` is a stable sort
and the comparator `indexOf(a.confidence) - indexOf(b.confidence)` orders by
`confLe`; a stable sort by a total preorder is `insertionSort`. -/
def sortByConfidence (l : List DetectedTechnology) : List DetectedTechnology :=
  l.insertionSort confLe

/-- The combined detection list of `detectFrameworks` before deduplication:
the HTML pass (skipped for empty or all-whitespace HTML) followed by the
header pass (run only when a header map with at least one key is supplied). -/
def combinedDetections (fsigs : List SignaturePattern)
    (hsigs : List HeaderSignature) (html : String)
    (headers : Option (List (String × String))) : List DetectedTechnology :=
  (if html == "" || strTrim html == "" then [] else detectFromHtmlWith fsigs html) ++
  (match headers with
   | some hs => if hs.length ≠ 0 then detectFromHeadersWith hsigs hs else []
   | none => [])

/-- The data-and-warnings part of a response envelope.  The envelope's `ok`
flag is constantly `true` and `meta.retrieved_at` is an external clock read,
so the embedded result is the `data` payload plus `meta.warnings`. -/
structure FrameworksResult where
  detected : List DetectedTechnology
  warnings : List String
deriving DecidableEq, Repr

/-- `detectFrameworks` from frameworks.ts, parametrised by the two signature
catalogs it reads. -/
def detectFrameworksWith (fsigs : List SignaturePattern)
    (hsigs : List HeaderSignature) (html : String)
    (headers : Option (List (String × String))) : FrameworksResult :=
  { detected :=
      sortByConfidence
        (deduplicateTechnologies (combinedDetections fsigs hsigs html headers)),
    warnings :=
      if html == "" || strTrim html == "" then ["Empty HTML content provided"] else [] }

/-- The result payload of `detectAnalytics`. -/
structure AnalyticsResult where
  detected : List DetectedAnalytics
  warnings : List String
deriving DecidableEq, Repr

/-- The body of the `detectAnalytics` loop for one analytics signature.  The
accumulator carries `detected` and the `seenNames` set; a signature whose name
was already seen is skipped, and the first matching rule (against the
original-case HTML or its lowercase copy) emits one entry and breaks. -/
def analyticsStep (html normalizedHtml : String)
    (acc : List DetectedAnalytics × List String) (sig : AnalyticsSignature) :
    List DetectedAnalytics × List String :=
  if acc.2.contains sig.name then acc
  else
    match sig.patterns.find? (fun p =>
        matchesPattern html p || matchesPattern normalizedHtml p) with
    | some pat =>
        (acc.1 ++ [{ name := sig.name, type := sig.type,
                     evidence := findEvidence html [pat] }],
         acc.2 ++ [sig.name])
    | none => acc

/-- `detectAnalytics` from analytics.ts, parametrised by the signature
catalog it reads (`analyticsSignatures` in the source). -/
def detectAnalyticsWith (asigs : List AnalyticsSignature) (html : String) :
    AnalyticsResult :=
  if html == "" || strTrim html == "" then
    { detected := [], warnings := ["Empty HTML content provided"] }
  else
    { detected := (asigs.foldl (analyticsStep html (strToLower html)) ([], [])).1,
      warnings := [] }

/-! The signature catalog from `config.ts`.  Each JS regex literal is rendered
into the token language; escaped characters (`\.`, `\/`) are plain characters
of a literal token, `/x/i` becomes a case-insensitive literal token. -/

/-- A regex that is an escaped literal, such as `/ga\.js/`. -/
def reLit (s : String) : Pattern :=
  .re (reOfToks [.strTok s.data])

/-- A case-insensitive escaped literal, such as `/express/i` (argument given
in lowercase). -/
def reCI (s : String) : Pattern :=
  .re (reOfToks [.strTokCI s.data])

/-- A regex given directly by its token sequence. -/
def reT (ts : List Tok) : Pattern :=
  .re (reOfToks ts)

/-- `[A-Z0-9]`. -/
def isUpperOrDigit (c : Char) : Bool :=
  c.isUpper || c.isDigit

/-- `[^"]`. -/
def notQuote (c : Char) : Bool :=
  c != '"'

/-- `.` (anything but a line terminator). -/
def notLineTerminator (c : Char) : Bool :=
  !isLineTerminator c

/-- The capture group `(\d+\.\d+\.\d+)` shared by most version extractors. -/
def semverGroup : List Tok :=
  [.plusOf Char.isDigit, .strTok ['.'], .plusOf Char.isDigit, .strTok ['.'],
   .plusOf Char.isDigit]

/-- `headerSignatures` from config.ts. -/
def headerSignatures : List HeaderSignature :=
  [⟨"x-powered-by",
    [⟨reCI "express", "Express", "backend-framework"⟩,
     ⟨reCI "php", "PHP", "runtime"⟩,
     ⟨reCI "asp.net", "ASP.NET", "backend-framework"⟩,
     ⟨reCI "next.js", "Next.js", "frontend-framework"⟩]⟩,
   ⟨"server",
    [⟨reCI "nginx", "nginx", "server"⟩,
     ⟨reCI "apache", "Apache", "server"⟩,
     ⟨reCI "cloudflare", "Cloudflare", "server"⟩,
     ⟨reCI "microsoft-iis", "Microsoft IIS", "server"⟩]⟩,
   ⟨"x-drupal-cache",
    [⟨reT [.plusOf notLineTerminator], "Drupal", "cms"⟩]⟩,
   ⟨"x-generator",
    [⟨reCI "wordpress", "WordPress", "cms"⟩,
     ⟨reCI "ghost", "Ghost", "cms"⟩,
     ⟨reCI "drupal", "Drupal", "cms"⟩,
     ⟨reCI "joomla", "Joomla", "cms"⟩]⟩,
   ⟨"x-shopify-stage",
    [⟨reT [.plusOf notLineTerminator], "Shopify", "ecommerce"⟩]⟩]

/-- `frameworkSignatures` from config.ts. -/
def frameworkSignatures : List SignaturePattern :=
  [{ name := "React",
     patterns :=
       [reT [.wb, .strTokCI "react".data, .wb],
        reT [.wb, .strTok "ReactDOM".data, .wb],
        reLit "_reactRootContainer",
        reLit "data-reactroot",
        reLit "react.production.min.js",
        reLit "react-dom"],
     category := "frontend-framework",
     versionPattern := some (reGroup [.strTok "react@".data] semverGroup []) },
   { name := "Vue.js",
     patterns :=
       [reT [.wb, .strTok "Vue".data, .wb],
        reLit "__VUE__",
        reT [.wb, .strTok "v-if".data, .wb],
        reT [.wb, .strTok "v-for".data, .wb],
        reT [.wb, .strTok "v-model".data, .wb],
        reLit "vue.runtime",
        reLit "vue.global"],
     category := "frontend-framework",
     versionPattern := some (reGroup [.strTok "vue@".data] semverGroup []) },
   { name := "Angular",
     patterns :=
       [reLit "ng-version",
        reLit "angular.js",
        reLit "angular.min.js",
        reT [.wb, .strTok "ng-app".data, .wb],
        reT [.wb, .strTok "ng-controller".data, .wb],
        reLit "@angular/core"],
     category := "frontend-framework",
     versionPattern :=
       some (reGroup [.strTok "ng-version=\"".data] semverGroup
         [.strTok ['"']]) },
   { name := "Next.js",
     patterns :=
       [reLit "__NEXT_DATA__",
        reLit "_next/",
        reLit "next/dist",
        reLit "next-route-announcer"],
     category := "frontend-framework",
     versionPattern :=
       some (reGroup [.strTok "\"next\":\"".data] semverGroup
         [.strTok ['"']]) },
   { name := "Nuxt",
     patterns :=
       [reLit "__NUXT__",
        reT [.wb, .strTokCI "nuxt".data, .wb],
        reLit "_nuxt/",
        reLit "nuxt.js"],
     category := "frontend-framework" },
   { name := "jQuery",
     patterns :=
       [reCI "jquery",
        reT [.wb, .strTok "jQuery".data, .wb],
        reLit "jquery.min.js",
        reT [.strTok "jquery-".data, .plusOf Char.isDigit]],
     category := "library",
     versionPattern :=
       some (reGroup [.strTokCI "jquery".data,
         .oneCh (fun c => c == '.' || c == '-')] semverGroup []) },
   { name := "Bootstrap",
     patterns :=
       [reCI "bootstrap",
        reLit "bootstrap.min.js",
        reLit "bootstrap.min.css",
        reT [.strTok "class=\"".data, .starOf notQuote, .wb,
          .altOf [.plain "container".data, .plain "row".data,
            .plain "col-".data]]],
     category := "css-framework",
     versionPattern :=
       some (reGroup [.strTokCI "bootstrap".data,
         .oneCh (fun c => c == '.' || c == '-')] semverGroup []) },
   { name := "Tailwind CSS",
     patterns :=
       [reCI "tailwind",
        reLit "tailwindcss",
        reT [.strTok "class=\"".data, .starOf notQuote, .wb,
          .altOf [.plain "flex".data, .plain "grid".data,
            .thenOne "p-".data Char.isDigit, .thenOne "m-".data Char.isDigit,
            .thenPlus "text-".data isWordChar,
            .thenPlus "bg-".data isWordChar]]],
     category := "css-framework" },
   { name := "WordPress",
     patterns :=
       [reLit "/wp-content/",
        reLit "/wp-includes/",
        reLit "wp-json",
        reCI "wordpress"],
     category := "cms",
     versionPattern :=
       some (reGroup [.strTok "ver=".data]
         [.plusOf Char.isDigit, .strTok ['.'], .plusOf Char.isDigit,
          .optCh '.', .starOf Char.isDigit] []) },
   { name := "Shopify",
     patterns :=
       [reT [.wb, .strTok "Shopify".data, .wb],
        reLit "cdn.shopify.com",
        reLit "shopify-section",
        reLit "myshopify.com"],
     category := "ecommerce" },
   { name := "Wix",
     patterns :=
       [reLit "wix-style",
        reLit "wix-viewer",
        reLit "static.wixstatic.com",
        reLit "wix.com"],
     category := "cms" },
   { name := "Svelte",
     patterns :=
       [reT [.wb, .strTokCI "svelte".data, .wb],
        reT [.strTok "svelte-".data, .plusOf isWordChar],
        reLit "__svelte"],
     category := "frontend-framework" },
   { name := "Gatsby",
     patterns :=
       [reCI "gatsby",
        reLit "___gatsby",
        reLit "gatsby-image"],
     category := "frontend-framework" },
   { name := "Remix",
     patterns :=
       [reLit "__remixContext",
        reCI "remix"],
     category := "frontend-framework" }]

/-- `analyticsSignatures` from config.ts. -/
def analyticsSignatures : List AnalyticsSignature :=
  [⟨"Google Analytics", "analytics",
    [reLit "ga.js",
     reT [.wb, .strTok "gtag(".data],
     reLit "analytics.js",
     reT [.wb, .strTok "UA-".data, .plusOf Char.isDigit, .strTok ['-'],
       .plusOf Char.isDigit],
     reLit "google-analytics.com",
     reLit "googletagmanager.com/gtag"]⟩,
   ⟨"Google Tag Manager", "tracking",
    [reLit "gtm.js",
     reT [.wb, .strTok "GTM-".data, .plusOf isUpperOrDigit],
     reLit "googletagmanager.com/gtm"]⟩,
   ⟨"Facebook Pixel", "marketing",
    [reT [.wb, .strTok "fbq(".data],
     reLit "facebook.net/en_US/fbevents",
     reT [.strTok "connect.facebook.net".data, .starOf notLineTerminator,
       .strTok "fbevents".data]]⟩,
   ⟨"Hotjar", "analytics",
    [reLit "hotjar.com", reLit "_hjSettings", reLit "hj.q"]⟩,
   ⟨"Segment", "analytics",
    [reLit "segment.com", reLit "cdn.segment.com", reLit "analytics.load("]⟩,
   ⟨"Mixpanel", "analytics",
    [reCI "mixpanel", reLit "cdn.mxpnl.com"]⟩,
   ⟨"Heap", "analytics",
    [reT [.strTok "heap-".data, .plusOf Char.isDigit],
     reLit "heapanalytics.com"]⟩,
   ⟨"Amplitude", "analytics",
    [reCI "amplitude", reLit "cdn.amplitude.com"]⟩,
   ⟨"Intercom", "marketing",
    [reCI "intercom", reLit "widget.intercom.io", reLit "intercomSettings"]⟩,
   ⟨"HubSpot", "marketing",
    [reCI "hubspot", reLit "hs-scripts.com", reLit "hbspt.forms"]⟩,
   ⟨"Drift", "marketing",
    [reLit "drift.com", reLit "js.driftt.com"]⟩,
   ⟨"LinkedIn Insight", "marketing",
    [reLit "linkedin.com/px", reLit "snap.licdn.com",
     reLit "_linkedin_data_partner_id"]⟩,
   ⟨"Twitter Pixel", "marketing",
    [reLit "static.ads-twitter.com", reLit "twq("]⟩,
   ⟨"Pinterest Tag", "marketing",
    [reLit "pintrk(", reLit "ct.pinterest.com"]⟩,
   ⟨"TikTok Pixel", "marketing",
    [reLit "analytics.tiktok.com", reLit "ttq.load"]⟩]

/-- `detectFrameworks` with the catalogs of `config.ts`. -/
def detectFrameworks (html : String)
    (headers : Option (List (String × String))) : FrameworksResult :=
  detectFrameworksWith frameworkSignatures headerSignatures html headers

/-- `detectFromHeaders` with the catalog of `config.ts`. -/
def detectFromHeaders (headers : List (String × String)) :
    List DetectedTechnology :=
  detectFromHeadersWith headerSignatures headers

/-- `detectFromHtml` with the catalog of `config.ts`. -/
def detectFromHtml (html : String) : List DetectedTechnology :=
  detectFromHtmlWith frameworkSignatures html

/-- `detectAnalytics` with the catalog of `config.ts`. -/
def detectAnalytics (html : String) : AnalyticsResult :=
  detectAnalyticsWith analyticsSignatures html

/-! Characterisations of the two detection passes as `filterMap` over their
catalogs. -/

/-- The technology emitted by the HTML pass for one content signature. -/
def htmlEmit (html : String) (sig : SignaturePattern) : Option DetectedTechnology :=
  let matchedPatterns := sig.patterns.filter (fun p => matchesPattern html p)
  if 0 < matchedPatterns.length then
    some { name := sig.name,
           version := extractVersion html sig.versionPattern,
           confidence := calculateConfidence matchedPatterns.length sig.patterns.length,
           category := sig.category,
           evidence := findEvidence html matchedPatterns }
  else none

/-- The technology emitted by the header pass for one header signature. -/
def headerEmit (normalized : List (String × String)) (sig : HeaderSignature) :
    Option DetectedTechnology :=
  match objGet normalized (strToLower sig.header) with
  | none => none
  | some headerValue =>
    if headerValue == "" then none
    else
      (sig.patterns.find? (fun r => matchesPattern headerValue r.pattern)).map
        (fun rule =>
          { name := rule.technology, confidence := .high,
            category := rule.category,
            evidence := some (sig.header ++ ": " ++ headerValue) })

theorem htmlStep_eq (html : String) (detected : List DetectedTechnology)
    (sig : SignaturePattern) :
    htmlStep html detected sig = detected ++ (htmlEmit html sig).toList := by
  simp only [htmlStep, htmlEmit]
  split <;> simp

theorem headerStep_eq (normalized : List (String × String))
    (detected : List DetectedTechnology) (sig : HeaderSignature) :
    headerStep normalized detected sig = detected ++ (headerEmit normalized sig).toList := by
  simp only [headerStep, headerEmit]
  cases objGet normalized (strToLower sig.header) with
  | none => simp
  | some v =>
      simp only
      split
      · simp
      · cases sig.patterns.find? (fun r => matchesPattern v r.pattern) <;> simp

/-- A left fold that appends at most one emitted element per input is a
`filterMap`. -/
theorem foldl_emit {α β : Type} (f : List β → α → List β) (g : α → Option β)
    (hf : ∀ acc a, f acc a = acc ++ (g a).toList) (l : List α) (acc : List β) :
    l.foldl f acc = acc ++ l.filterMap g := by
  induction l generalizing acc with
  | nil => simp
  | cons a l ih =>
      rw [List.foldl_cons, hf, ih, List.filterMap_cons]
      cases g a <;> simp

theorem detectFromHtmlWith_eq (fsigs : List SignaturePattern) (html : String) :
    detectFromHtmlWith fsigs html = fsigs.filterMap (htmlEmit html) := by
  unfold detectFromHtmlWith
  rw [foldl_emit (htmlStep html) (htmlEmit html) (htmlStep_eq html) fsigs []]
  simp

theorem detectFromHeadersWith_eq (hsigs : List HeaderSignature)
    (headers : List (String × String)) :
    detectFromHeadersWith hsigs headers =
      hsigs.filterMap (headerEmit (normalizeHeaders headers)) := by
  unfold detectFromHeadersWith
  rw [foldl_emit _ _ (headerStep_eq (normalizeHeaders headers)) hsigs []]
  simp

/-- C1: for every content-family signature, when `matchCount` of its matchers
match the page (`matchCount > 0` out of `totalMatchers`), the HTML pass emits
a technology for it whose confidence is: high if
`matchCount / totalMatchers ≥ 0.5` or `matchCount ≥ 3`; otherwise medium if
`matchCount / totalMatchers ≥ 0.25` or `matchCount ≥ 2`; otherwise low. -/
theorem C1_confidence_rule (fsigs : List SignaturePattern) (html : String)
    (sig : SignaturePattern) (hmem : sig ∈ fsigs)
    (hm : 0 < (sig.patterns.filter (fun p => matchesPattern html p)).length) :
    ∃ e ∈ detectFromHtmlWith fsigs html,
      e.name = sig.name ∧ e.category = sig.category ∧
      e.confidence =
        (if (1 : ℚ) / 2 ≤
              ((sig.patterns.filter (fun p => matchesPattern html p)).length : ℚ) /
                (sig.patterns.length : ℚ) ∨
            3 ≤ (sig.patterns.filter (fun p => matchesPattern html p)).length then
          ConfidenceLevel.high
         else if (1 : ℚ) / 4 ≤
              ((sig.patterns.filter (fun p => matchesPattern html p)).length : ℚ) /
                (sig.patterns.length : ℚ) ∨
            2 ≤ (sig.patterns.filter (fun p => matchesPattern html p)).length then
          ConfidenceLevel.medium
         else ConfidenceLevel.low) := by
  refine ⟨{ name := sig.name,
            version := extractVersion html sig.versionPattern,
            confidence := calculateConfidence
              (sig.patterns.filter (fun p => matchesPattern html p)).length
              sig.patterns.length,
            category := sig.category,
            evidence := findEvidence html
              (sig.patterns.filter (fun p => matchesPattern html p)) }, ?_, rfl, rfl, ?_⟩
  · rw [detectFromHtmlWith_eq]
    refine List.mem_filterMap.mpr ⟨sig, hmem, ?_⟩
    simp only [htmlEmit]
    rw [if_pos hm]
  · rfl

/-- The witness signature for `C1_confidence_rule`: two matchers, one of
which matches the page `"a"`. -/
def sigW : SignaturePattern :=
  { name := "T", patterns := [Pattern.lit "a", Pattern.lit "zz"],
    category := "cat" }

/-- Witness for C1 at a concrete signature and page: one of two matchers
fires, the ratio is exactly 0.5, and the emitted confidence is high. -/
theorem C1_confidence_rule_w :
    sigW ∈ [sigW] ∧
    0 < (sigW.patterns.filter (fun p => matchesPattern "a" p)).length ∧
    ∃ e ∈ detectFromHtmlWith [sigW] "a",
      e.name = sigW.name ∧ e.category = sigW.category ∧
      e.confidence =
        (if (1 : ℚ) / 2 ≤
              ((sigW.patterns.filter (fun p => matchesPattern "a" p)).length : ℚ) /
                (sigW.patterns.length : ℚ) ∨
            3 ≤ (sigW.patterns.filter (fun p => matchesPattern "a" p)).length then
          ConfidenceLevel.high
         else if (1 : ℚ) / 4 ≤
              ((sigW.patterns.filter (fun p => matchesPattern "a" p)).length : ℚ) /
                (sigW.patterns.length : ℚ) ∨
            2 ≤ (sigW.patterns.filter (fun p => matchesPattern "a" p)).length then
          ConfidenceLevel.medium
         else ConfidenceLevel.low) :=
  ⟨List.mem_singleton.mpr rfl, by decide,
   C1_confidence_rule [sigW] "a" sigW (List.mem_singleton.mpr rfl) (by decide)⟩

/-- The strength order on confidence tiers: low < medium < high. -/
def confRank : ConfidenceLevel → Nat
  | .low => 0
  | .medium => 1
  | .high => 2

/-- C9: for a fixed signature size, the confidence tier computed by
`calculateConfidence` is monotone in the match count (ordering
low < medium < high). -/
theorem C9_confidence_monotone (t m1 m2 : Nat) (h1 : 1 ≤ m1) (h12 : m1 ≤ m2)
    (h2 : m2 ≤ t) :
    confRank (calculateConfidence m1 t) ≤ confRank (calculateConfidence m2 t) := by
  have ht : 0 < t := Nat.lt_of_lt_of_le (Nat.lt_of_lt_of_le Nat.zero_lt_one h1)
    (Nat.le_trans h12 h2)
  have htq : (0 : ℚ) < (t : ℚ) := by exact_mod_cast ht
  have hr : (m1 : ℚ) / (t : ℚ) ≤ (m2 : ℚ) / (t : ℚ) := by
    apply div_le_div_of_nonneg_right ?h htq.le
    case h => exact_mod_cast h12
  unfold calculateConfidence
  by_cases hH1 : (1 : ℚ) / 2 ≤ (m1 : ℚ) / (t : ℚ) ∨ 3 ≤ m1
  · have hH2 : (1 : ℚ) / 2 ≤ (m2 : ℚ) / (t : ℚ) ∨ 3 ≤ m2 := by
      rcases hH1 with h | h
      · exact Or.inl (le_trans h hr)
      · exact Or.inr (le_trans h h12)
    rw [if_pos hH1, if_pos hH2]
  · by_cases hM1 : (1 : ℚ) / 4 ≤ (m1 : ℚ) / (t : ℚ) ∨ 2 ≤ m1
    · have hM2 : (1 : ℚ) / 4 ≤ (m2 : ℚ) / (t : ℚ) ∨ 2 ≤ m2 := by
        rcases hM1 with h | h
        · exact Or.inl (le_trans h hr)
        · exact Or.inr (le_trans h h12)
      rw [if_neg hH1, if_pos hM1]
      by_cases hH2 : (1 : ℚ) / 2 ≤ (m2 : ℚ) / (t : ℚ) ∨ 3 ≤ m2
      · rw [if_pos hH2]; decide
      · rw [if_neg hH2, if_pos hM2]
    · rw [if_neg hH1, if_neg hM1]
      exact Nat.zero_le _

/-- Witness for C9 at a concrete signature size and match counts. -/
theorem C9_confidence_monotone_w :
    1 ≤ 1 ∧ 1 ≤ 2 ∧ 2 ≤ 4 ∧
    confRank (calculateConfidence 1 4) ≤ confRank (calculateConfidence 2 4) :=
  ⟨by decide, by decide, by decide,
   C9_confidence_monotone 4 1 2 (by decide) (by decide) (by decide)⟩

/-! Properties of deduplication. -/

/-- The names of a detection list. -/
def namesOf (l : List DetectedTechnology) : List String :=
  l.map (fun t => t.name)

theorem namesOf_append (l1 l2 : List DetectedTechnology) :
    namesOf (l1 ++ l2) = namesOf l1 ++ namesOf l2 := by
  simp [namesOf]

theorem mem_namesOf {l : List DetectedTechnology} {n : String} :
    n ∈ namesOf l ↔ ∃ t ∈ l, t.name = n := by
  simp [namesOf]

theorem find?_name_none {l : List DetectedTechnology} {n : String}
    (h : l.find? (fun t => t.name == n) = none) : ∀ t ∈ l, t.name ≠ n := by
  intro t ht
  have := List.find?_eq_none.mp h t ht
  simpa using this

theorem mem_unique_names {l : List DetectedTechnology} {a b : DetectedTechnology}
    (h : (namesOf l).Nodup) (ha : a ∈ l) (hb : b ∈ l) (hn : a.name = b.name) :
    a = b :=
  List.inj_on_of_nodup_map h ha hb hn

theorem dedup_concat (l : List DetectedTechnology) (x : DetectedTechnology) :
    deduplicateTechnologies (l ++ [x]) =
      dedupInsert (deduplicateTechnologies l) x := by
  simp [deduplicateTechnologies, List.foldl_append]

theorem dedupInsert_of_not_found {acc : List DetectedTechnology}
    {tech : DetectedTechnology}
    (h : acc.find? (fun t => t.name == tech.name) = none) :
    dedupInsert acc tech = acc ++ [tech] := by
  simp [dedupInsert, h]

/-- Replacing the (unique) entry named `x.name` preserves the name list. -/
theorem namesOf_replace (acc : List DetectedTechnology) (x : DetectedTechnology) :
    namesOf (acc.map (fun t => if t.name == x.name then x else t)) = namesOf acc := by
  simp only [namesOf, List.map_map]
  apply List.map_congr_left
  intro t _
  by_cases h : t.name = x.name
  · simp [Function.comp, h]
  · simp [Function.comp, h]

/-- The four invariants of one `dedupInsert` step in the case where an entry
with the new name already exists and the new entry wins (is written over it):
its confidence index must not exceed the existing one. -/
theorem dedupReplace_invariants (l : List DetectedTechnology)
    (x a0 : DetectedTechnology)
    (hnd : (namesOf (deduplicateTechnologies l)).Nodup)
    (hmem : ∀ e ∈ deduplicateTechnologies l, e ∈ l)
    (hex : ∀ y ∈ l, ∃ e ∈ deduplicateTechnologies l, e.name = y.name)
    (hmin : ∀ e ∈ deduplicateTechnologies l, ∀ y ∈ l, y.name = e.name →
      confidenceIndex e.confidence ≤ confidenceIndex y.confidence)
    (ha0mem : a0 ∈ deduplicateTechnologies l) (ha0n : a0.name = x.name)
    (hconf : confidenceIndex x.confidence ≤ confidenceIndex a0.confidence) :
    let rep := (deduplicateTechnologies l).map
      (fun t => if t.name == x.name then x else t)
    (namesOf rep).Nodup ∧
    (∀ e ∈ rep, e ∈ l ++ [x]) ∧
    (∀ y ∈ l ++ [x], ∃ e ∈ rep, e.name = y.name) ∧
    (∀ e ∈ rep, ∀ y ∈ l ++ [x], y.name = e.name →
      confidenceIndex e.confidence ≤ confidenceIndex y.confidence) := by
  intro rep
  have hrepn : namesOf rep = namesOf (deduplicateTechnologies l) :=
    namesOf_replace _ x
  have hmemrep : ∀ e ∈ rep, e = x ∨ (e ∈ deduplicateTechnologies l ∧ e.name ≠ x.name) := by
    intro e he
    obtain ⟨t, ht, hte⟩ := List.mem_map.mp he
    by_cases h : t.name = x.name
    · left; rw [← hte]; simp [h]
    · right
      have : e = t := by rw [← hte]; simp [h]
      rw [this]; exact ⟨ht, h⟩
  refine ⟨by rw [hrepn]; exact hnd, ?_, ?_, ?_⟩
  · intro e he
    rcases hmemrep e he with rfl | ⟨hd, _⟩
    · exact List.mem_append_right _ (List.mem_singleton.mpr rfl)
    · exact List.mem_append_left _ (hmem e hd)
  · intro y hy
    rcases List.mem_append.mp hy with hy | hy
    · obtain ⟨e, he, hen⟩ := hex y hy
      by_cases h : e.name = x.name
      · exact ⟨x, List.mem_map.mpr ⟨e, he, by simp [h]⟩, by rw [← h, hen]⟩
      · exact ⟨e, List.mem_map.mpr ⟨e, he, by simp [h]⟩, hen⟩
    · rw [List.mem_singleton.mp hy]
      refine ⟨x, ?_, rfl⟩
      refine List.mem_map.mpr ⟨a0, ha0mem, ?_⟩
      simp [ha0n]
  · intro e he y hy hyn
    rcases hmemrep e he with rfl | ⟨hd, hne⟩
    · rcases List.mem_append.mp hy with hy | hy
      · have := hmin a0 ha0mem y hy (by rw [hyn, ha0n])
        exact le_trans hconf this
      · rw [List.mem_singleton.mp hy]
    · rcases List.mem_append.mp hy with hy | hy
      · exact hmin e hd y hy hyn
      · rw [List.mem_singleton.mp hy] at hyn
        exact absurd hyn.symm hne

/-- The master invariant of `deduplicateTechnologies`: output names are
unique, every output entry comes from the input, every input name survives,
and an output entry has minimal confidence index among input entries of its
name. -/
theorem dedup_master (l : List DetectedTechnology) :
    (namesOf (deduplicateTechnologies l)).Nodup ∧
    (∀ e ∈ deduplicateTechnologies l, e ∈ l) ∧
    (∀ y ∈ l, ∃ e ∈ deduplicateTechnologies l, e.name = y.name) ∧
    (∀ e ∈ deduplicateTechnologies l, ∀ y ∈ l, y.name = e.name →
      confidenceIndex e.confidence ≤ confidenceIndex y.confidence) := by
  induction l using List.reverseRecOn with
  | nil => simp [deduplicateTechnologies, namesOf]
  | append_singleton l x ih =>
      obtain ⟨hnd, hmem, hex, hmin⟩ := ih
      rw [dedup_concat]
      rcases hfind : (deduplicateTechnologies l).find? (fun t => t.name == x.name)
        with _ | a0
      · have hni : ∀ t ∈ deduplicateTechnologies l, t.name ≠ x.name :=
          find?_name_none hfind
        rw [dedupInsert_of_not_found hfind]
        refine ⟨?_, ?_, ?_, ?_⟩
        · rw [namesOf_append]
          refine List.Nodup.append hnd (by simp [namesOf]) ?_
          intro n hn1 hn2
          obtain ⟨t, ht, htn⟩ := mem_namesOf.mp hn1
          have : n = x.name := by simpa [namesOf] using hn2
          exact hni t ht (htn.trans this)
        · intro e he
          rcases List.mem_append.mp he with he | he
          · exact List.mem_append_left _ (hmem e he)
          · exact List.mem_append_right _ he
        · intro y hy
          rcases List.mem_append.mp hy with hy | hy
          · obtain ⟨e, he, hen⟩ := hex y hy
            exact ⟨e, List.mem_append_left _ he, hen⟩
          · rw [List.mem_singleton.mp hy]
            exact ⟨x, List.mem_append_right _ (List.mem_singleton.mpr rfl), rfl⟩
        · intro e he y hy hyn
          rcases List.mem_append.mp he with he | he
          · rcases List.mem_append.mp hy with hy | hy
            · exact hmin e he y hy hyn
            · rw [List.mem_singleton.mp hy] at hyn
              exact absurd (hyn ▸ rfl : x.name = e.name).symm (hni e he)
          · have hex2 : e = x := List.mem_singleton.mp he
            subst hex2
            rcases List.mem_append.mp hy with hy | hy
            · obtain ⟨e1, he1, he1n⟩ := hex y hy
              exact absurd (he1n.trans hyn) (hni e1 he1)
            · rw [List.mem_singleton.mp hy]
      · have ha0mem : a0 ∈ deduplicateTechnologies l :=
          List.mem_of_find?_eq_some hfind
        have ha0n : a0.name = x.name := by
          have := List.find?_some hfind
          simpa using this
        simp only [dedupInsert, hfind]
        split
        · rename_i hlt
          exact dedupReplace_invariants l x a0 hnd hmem hex hmin ha0mem ha0n
            (le_of_lt hlt)
        · split
          · rename_i hcond
            have heq : confidenceIndex x.confidence = confidenceIndex a0.confidence := by
              have := (Bool.and_eq_true _ _).mp ((Bool.and_eq_true _ _).mp hcond).1
              simpa using this.1
            exact dedupReplace_invariants l x a0 hnd hmem hex hmin ha0mem ha0n heq.le
          · rename_i hlt _
            have hge : confidenceIndex a0.confidence ≤ confidenceIndex x.confidence :=
              Nat.le_of_not_lt hlt
            refine ⟨hnd, ?_, ?_, ?_⟩
            · intro e he
              exact List.mem_append_left _ (hmem e he)
            · intro y hy
              rcases List.mem_append.mp hy with hy | hy
              · obtain ⟨e, he, hen⟩ := hex y hy
                exact ⟨e, he, hen⟩
              · rw [List.mem_singleton.mp hy]
                exact ⟨a0, ha0mem, ha0n⟩
            · intro e he y hy hyn
              rcases List.mem_append.mp hy with hy | hy
              · exact hmin e he y hy hyn
              · rw [List.mem_singleton.mp hy] at hyn
                have : e = a0 := mem_unique_names hnd he ha0mem (by rw [← hyn, ha0n])
                rw [this]
                rw [List.mem_singleton.mp hy]
                exact hge

/-- Deduplication of a list whose names are already unique is the identity. -/
theorem dedup_of_nodup_names (l : List DetectedTechnology)
    (h : (namesOf l).Nodup) : deduplicateTechnologies l = l := by
  induction l using List.reverseRecOn with
  | nil => rfl
  | append_singleton l x ih =>
      rw [namesOf_append] at h
      obtain ⟨h1, _, hdj⟩ := List.nodup_append.mp h
      have hx : x.name ∉ namesOf l := by
        intro hc
        exact hdj hc (by simp [namesOf])
      rw [dedup_concat, ih h1, dedupInsert_of_not_found ?hf]
      case hf =>
        refine List.find?_eq_none.mpr ?_
        intro t ht
        simp only [beq_iff_eq]
        intro hc
        exact hx (mem_namesOf.mpr ⟨t, ht, hc⟩)

/-- Deduplication of a two-entry group: the explicit decision table of
`dedupInsert` for a pair sharing a name. -/
theorem dedup_pair (a b : DetectedTechnology) (hname : a.name = b.name) :
    deduplicateTechnologies [a, b] =
      if confidenceIndex b.confidence < confidenceIndex a.confidence then [b]
      else if confidenceIndex b.confidence == confidenceIndex a.confidence &&
          !truthyStr a.version && truthyStr b.version then [b]
      else [a] := by
  have h1 : deduplicateTechnologies [a, b] = dedupInsert [a] b := by
    simp [deduplicateTechnologies, dedupInsert]
  rw [h1]
  have hfind : [a].find? (fun t => t.name == b.name) = some a := by
    simp [List.find?, hname]
  have hrep : [a].map (fun t => if t.name == b.name then b else t) = [b] := by
    simp [hname]
  simp only [dedupInsert, hfind]
  split
  · exact hrep
  · split
    · exact hrep
    · rfl

/-- C2: deduplication by name keeps, among entries sharing a name, the one
with the better confidence (high > medium > low, i.e. the smaller
`confidenceOrder` index); when two entries tie on confidence and exactly one
carries a version value, the entry with the version is kept.  (The version
values produced by the detection passes are never the empty string, which JS
would treat as absent; the last case assumes this.) -/
theorem C2_dedup_better_confidence :
    (∀ l : List DetectedTechnology, ∀ e ∈ deduplicateTechnologies l,
      ∀ y ∈ l, y.name = e.name →
        confidenceIndex e.confidence ≤ confidenceIndex y.confidence) ∧
    (∀ a b : DetectedTechnology, a.name = b.name →
      (confidenceIndex a.confidence < confidenceIndex b.confidence →
        deduplicateTechnologies [a, b] = [a]) ∧
      (confidenceIndex b.confidence < confidenceIndex a.confidence →
        deduplicateTechnologies [a, b] = [b]) ∧
      (a.confidence = b.confidence → a.version.isSome → b.version = none →
        deduplicateTechnologies [a, b] = [a]) ∧
      (a.confidence = b.confidence → a.version = none →
        ∀ s, b.version = some s → s ≠ "" →
          deduplicateTechnologies [a, b] = [b])) := by
  constructor
  · intro l e he y hy hyn
    exact (dedup_master l).2.2.2 e he y hy hyn
  · intro a b hname
    refine ⟨?_, ?_, ?_, ?_⟩
    · intro hlt
      rw [dedup_pair a b hname, if_neg (Nat.lt_asymm hlt), if_neg ?_]
      simp only [Bool.and_eq_true, beq_iff_eq]
      rintro ⟨⟨heq, _⟩, _⟩
      exact absurd heq (Nat.ne_of_gt hlt)
    · intro hlt
      rw [dedup_pair a b hname, if_pos hlt]
    · intro _ hav hbv
      rw [dedup_pair a b hname, if_neg (by simp [*]), if_neg ?_]
      simp [hbv, truthyStr]
    · intro hconf hav s hbv hs
      rw [dedup_pair a b hname, if_neg (by simp [hconf]), if_pos ?_]
      simp [hconf, hav, hbv, truthyStr, hs]

/-- Witness for C2: a low-confidence and a high-confidence entry of the same
name; the high-confidence one is kept. -/
theorem C2_dedup_better_confidence_w :
    (⟨"n", none, .low, "c", none⟩ : DetectedTechnology).name =
      (⟨"n", none, .high, "c", none⟩ : DetectedTechnology).name ∧
    confidenceIndex ConfidenceLevel.high < confidenceIndex ConfidenceLevel.low ∧
    deduplicateTechnologies
      [⟨"n", none, .low, "c", none⟩, ⟨"n", none, .high, "c", none⟩] =
      [⟨"n", none, .high, "c", none⟩] :=
  ⟨rfl, by decide,
   (C2_dedup_better_confidence.2 ⟨"n", none, .low, "c", none⟩
     ⟨"n", none, .high, "c", none⟩ rfl).2.1 (by decide)⟩

/-- C3: the detected list returned by `detectFrameworks` has pairwise
distinct names, and running it through deduplication again is a no-op. -/
theorem C3_unique_names_idempotent (html : String)
    (headers : Option (List (String × String))) :
    (namesOf (detectFrameworks html headers).detected).Nodup ∧
    deduplicateTechnologies (detectFrameworks html headers).detected =
      (detectFrameworks html headers).detected := by
  have hperm : (detectFrameworks html headers).detected.Perm
      (deduplicateTechnologies
        (combinedDetections frameworkSignatures headerSignatures html headers)) :=
    List.perm_insertionSort confLe _
  have hnd0 := (dedup_master
    (combinedDetections frameworkSignatures headerSignatures html headers)).1
  have hnd : (namesOf (detectFrameworks html headers).detected).Nodup := by
    unfold namesOf
    unfold namesOf at hnd0
    exact ((hperm.map (fun t => t.name)).nodup_iff).mpr hnd0
  exact ⟨hnd, dedup_of_nodup_names _ hnd⟩

/-! Stability of the final sort. -/

theorem filter_orderedInsert_conf (a : DetectedTechnology)
    (s : List DetectedTechnology) (c : ConfidenceLevel) :
    (s.orderedInsert confLe a).filter (fun t => t.confidence == c) =
      if a.confidence == c then a :: s.filter (fun t => t.confidence == c)
      else s.filter (fun t => t.confidence == c) := by
  induction s with
  | nil =>
      by_cases hac : a.confidence = c <;>
        simp [List.orderedInsert, List.filter_cons, hac]
  | cons b s ih =>
      rw [List.orderedInsert]
      by_cases hab : confLe a b
      · rw [if_pos hab]
        simp only [List.filter_cons]
      · rw [if_neg hab]
        by_cases hbc : b.confidence = c
        · by_cases hac : a.confidence = c
          · exact absurd (show confLe a b by
              unfold confLe; rw [hac, hbc]) hab
          · simp [List.filter_cons, ih, hbc, hac]
        · simp [List.filter_cons, ih, hbc]

theorem sortByConfidence_filter_conf (l : List DetectedTechnology)
    (c : ConfidenceLevel) :
    (sortByConfidence l).filter (fun t => t.confidence == c) =
      l.filter (fun t => t.confidence == c) := by
  unfold sortByConfidence
  induction l with
  | nil => rfl
  | cons a l ih =>
      rw [List.insertionSort, filter_orderedInsert_conf]
      simp only [List.filter_cons, ih]

/-- C8: the detected list of `detectFrameworks` is ordered by the
`confidenceOrder` index (every high entry precedes every medium entry, which
precedes every low entry), and within one confidence tier the entries keep
their relative order from the deduplicated pre-sort list (stable sort). -/
theorem C8_sorted_stable (html : String)
    (headers : Option (List (String × String))) :
    (detectFrameworks html headers).detected.Pairwise
      (fun a b => confidenceIndex a.confidence ≤ confidenceIndex b.confidence) ∧
    (∀ c : ConfidenceLevel,
      (detectFrameworks html headers).detected.filter (fun t => t.confidence == c) =
        (deduplicateTechnologies
          (combinedDetections frameworkSignatures headerSignatures html
            headers)).filter (fun t => t.confidence == c)) := by
  constructor
  · exact List.sorted_insertionSort confLe
      (deduplicateTechnologies
        (combinedDetections frameworkSignatures headerSignatures html headers))
  · intro c
    exact sortByConfidence_filter_conf
      (deduplicateTechnologies
        (combinedDetections frameworkSignatures headerSignatures html headers)) c

/-- C4: header-based detection looks every header signature up in the
lowercase-key-normalised header map, tests its rules in declared order
against the header's value, and the first matching rule emits exactly one
technology with confidence high, evidence `"<headerName>: <headerValue>"`
and no version; later rules of that header are not tested.  In particular the
header map `{"X-Powered-By": "Express"}` with empty HTML yields exactly one
technology: Express, backend-framework, confidence high, evidence
`"x-powered-by: Express"`. -/
theorem C4_header_detection :
    (∀ (hsigs : List HeaderSignature) (headers : List (String × String)),
      detectFromHeadersWith hsigs headers = hsigs.filterMap (fun sig =>
        match objGet (normalizeHeaders headers) (strToLower sig.header) with
        | none => none
        | some headerValue =>
          if headerValue == "" then none
          else
            (sig.patterns.find? (fun r => matchesPattern headerValue r.pattern)).map
              (fun rule =>
                { name := rule.technology, version := none,
                  confidence := ConfidenceLevel.high,
                  category := rule.category,
                  evidence := some (sig.header ++ ": " ++ headerValue) }))) ∧
    (detectFrameworks "" (some [("X-Powered-By", "Express")])).detected =
      [{ name := "Express", version := none, confidence := ConfidenceLevel.high,
         category := "backend-framework",
         evidence := some "x-powered-by: Express" }] := by
  constructor
  · intro hsigs headers
    rw [detectFromHeadersWith_eq]
    rfl
  · decide

/-- C5: for empty or all-whitespace HTML, `detectFrameworks` and
`detectAnalytics` emit exactly the warning "Empty HTML content provided" and
produce zero HTML-based detections; for `detectFrameworks` the header pass
still runs when a non-empty header map is supplied. -/
theorem C5_empty_html (html : String) (h : strTrim html = "") :
    (∀ headers : List (String × String), headers ≠ [] →
      detectFrameworks html (some headers) =
        { detected := sortByConfidence (deduplicateTechnologies
            (detectFromHeaders headers)),
          warnings := ["Empty HTML content provided"] }) ∧
    detectFrameworks html none =
      { detected := [], warnings := ["Empty HTML content provided"] } ∧
    detectAnalytics html =
      { detected := [], warnings := ["Empty HTML content provided"] } := by
  have hb : (html == "" || strTrim html == "") = true := by
    simp [h]
  refine ⟨?_, ?_, ?_⟩
  · intro headers hne
    have hlen : headers.length ≠ 0 := by
      simpa [List.length_eq_zero] using hne
    simp [detectFrameworks, detectFrameworksWith, combinedDetections, hb, hlen,
      detectFromHeaders]
  · simp [detectFrameworks, detectFrameworksWith, combinedDetections, hb]
    rfl
  · simp [detectAnalytics, detectAnalyticsWith, hb]

/-- Witness for C5 at a one-space page and a non-empty header map. -/
theorem C5_empty_html_w :
    strTrim " " = "" ∧
    ([("X-Powered-By", "Express")] : List (String × String)) ≠ [] ∧
    detectFrameworks " " (some [("X-Powered-By", "Express")]) =
      { detected := sortByConfidence (deduplicateTechnologies
          (detectFromHeaders [("X-Powered-By", "Express")])),
        warnings := ["Empty HTML content provided"] } ∧
    detectAnalytics " " =
      { detected := [], warnings := ["Empty HTML content provided"] } :=
  ⟨by decide, by decide,
   (C5_empty_html " " (by decide)).1 [("X-Powered-By", "Express")] (by decide),
   (C5_empty_html " " (by decide)).2.2⟩

/-- C6: `findEvidence` scans its rules in order; for the first rule that
matches, a literal yields the window of the text from 20 characters before
its first occurrence through 20 characters after its end (clamped to the
text's bounds, the truncated subtraction and `min` below) wrapped in leading
and trailing `...`; a regex yields the full matched substring (group 0); and
when no rule matches the result is `none`. -/
theorem C6_findEvidence (content : String) (ps : List Pattern) :
    (ps.find? (fun p => matchesPattern content p) = none →
      findEvidence content ps = none) ∧
    (∀ s, ps.find? (fun p => matchesPattern content p) = some (.lit s) →
      ∀ i, strIndexOf content s = some i →
        findEvidence content ps =
          some ("..." ++ sliceStr content (i - 20)
            (min content.length (i + s.length + 20)) ++ "...")) ∧
    (∀ r, ps.find? (fun p => matchesPattern content p) = some (.re r) →
      ∀ m, r.exec content = some m → findEvidence content ps = some m.group0) := by
  induction ps with
  | nil =>
      refine ⟨fun _ => rfl, fun s hs => ?_, fun r hr => ?_⟩
      · simp at hs
      · simp at hr
  | cons p rest ih =>
      by_cases hp : matchesPattern content p = true
      · have hfind : (p :: rest).find? (fun p => matchesPattern content p) = some p :=
          List.find?_cons_of_pos _ hp
        refine ⟨fun hn => ?_, fun s hs i hi => ?_, fun r hr m hm => ?_⟩
        · rw [hfind] at hn; cases hn
        · rw [hfind] at hs
          have hps : p = .lit s := Option.some.inj hs
          subst hps
          simp only [findEvidence]
          rw [hi]
        · rw [hfind] at hr
          have hpr : p = .re r := Option.some.inj hr
          subst hpr
          simp only [findEvidence]
          rw [hm]
      · have hfind : (p :: rest).find? (fun p => matchesPattern content p) =
            rest.find? (fun p => matchesPattern content p) :=
          List.find?_cons_of_neg _ (by simpa using hp)
        have hskip : findEvidence content (p :: rest) = findEvidence content rest := by
          cases p with
          | lit pat =>
              have hnone : strIndexOf content pat = none := by
                cases hx : strIndexOf content pat with
                | none => rfl
                | some i =>
                    exact absurd (by simp [matchesPattern, strContains, hx]) hp
              simp only [findEvidence]
              rw [hnone]
          | re r =>
              have hnone : r.exec content = none := by
                cases hx : r.exec content with
                | none => rfl
                | some m =>
                    exact absurd (by simp [matchesPattern, hx]) hp
              simp only [findEvidence]
              rw [hnone]
        rw [hfind, hskip]
        exact ih

/-- Witness for C6 on a small page with a literal rule. -/
theorem C6_findEvidence_w :
    ([Pattern.lit "cd"].find? (fun p => matchesPattern "abcdef" p) =
      some (.lit "cd")) ∧
    strIndexOf "abcdef" "cd" = some 2 ∧
    findEvidence "abcdef" [Pattern.lit "cd"] =
      some ("..." ++ sliceStr "abcdef" (2 - 20)
        (min "abcdef".length (2 + "cd".length + 20)) ++ "...") :=
  ⟨rfl, by decide,
   (C6_findEvidence "abcdef" [Pattern.lit "cd"]).2.1 "cd" rfl 2 (by decide)⟩

/-- The invariant of the `detectAnalytics` fold over the signature catalog:
the seen-name set is exactly the list of emitted names, emitted names do not
repeat, every emitted entry is either inherited from the accumulator or
produced by a signature of its name via its first matching rule, and a name
is emitted iff it was already present or some signature of that name has a
rule matching the page or its lowercase copy. -/
theorem analyticsFold_invariant (html nh : String) :
    ∀ (asigs : List AnalyticsSignature) (acc : List DetectedAnalytics × List String),
      acc.2 = acc.1.map (fun e => e.name) →
      ((asigs.foldl (analyticsStep html nh) acc).2 =
        (asigs.foldl (analyticsStep html nh) acc).1.map (fun e => e.name)) ∧
      (acc.2.Nodup → (asigs.foldl (analyticsStep html nh) acc).2.Nodup) ∧
      (∀ e ∈ (asigs.foldl (analyticsStep html nh) acc).1,
        e ∈ acc.1 ∨ ∃ sig ∈ asigs, e.name = sig.name ∧ e.type = sig.type ∧
          ∃ p, sig.patterns.find? (fun q =>
            matchesPattern html q || matchesPattern nh q) = some p ∧
            e.evidence = findEvidence html [p]) ∧
      (∀ n, (∃ e ∈ (asigs.foldl (analyticsStep html nh) acc).1, e.name = n) ↔
        ((∃ e ∈ acc.1, e.name = n) ∨ ∃ sig ∈ asigs, sig.name = n ∧
          ∃ p ∈ sig.patterns,
            (matchesPattern html p || matchesPattern nh p) = true)) := by
  intro asigs
  induction asigs with
  | nil =>
      intro acc hsync
      refine ⟨hsync, fun h => h, fun e he => Or.inl he, fun n => by simp⟩
  | cons sig rest ih =>
      intro acc hsync
      rw [List.foldl_cons]
      by_cases hseen : acc.2.contains sig.name = true
      · have hstep : analyticsStep html nh acc sig = acc := by
          unfold analyticsStep
          rw [if_pos hseen]
        rw [hstep]
        obtain ⟨i1, i2, i3, i4⟩ := ih acc hsync
        refine ⟨i1, i2, fun e he => ?_, fun n => ?_⟩
        · rcases i3 e he with h | ⟨s, hs, hrest⟩
          · exact Or.inl h
          · exact Or.inr ⟨s, List.mem_cons_of_mem _ hs, hrest⟩
        · rw [i4 n]
          constructor
          · rintro (h | ⟨s, hs, hrest⟩)
            · exact Or.inl h
            · exact Or.inr ⟨s, List.mem_cons_of_mem _ hs, hrest⟩
          · rintro (h | ⟨s, hs, hsn, q, hq, hmq⟩)
            · exact Or.inl h
            · rcases List.mem_cons.mp hs with rfl | hs'
              · left
                have hmem2 : s.name ∈ acc.2 := List.elem_iff.mp hseen
                rw [hsync] at hmem2
                obtain ⟨e, he, hen⟩ := List.mem_map.mp hmem2
                exact ⟨e, he, hen.trans hsn⟩
              · exact Or.inr ⟨s, hs', hsn, q, hq, hmq⟩
      · cases hfind : sig.patterns.find?
            (fun q => matchesPattern html q || matchesPattern nh q) with
        | none =>
            have hstep : analyticsStep html nh acc sig = acc := by
              unfold analyticsStep
              rw [if_neg hseen, hfind]
            rw [hstep]
            obtain ⟨i1, i2, i3, i4⟩ := ih acc hsync
            refine ⟨i1, i2, fun e he => ?_, fun n => ?_⟩
            · rcases i3 e he with h | ⟨s, hs, hrest⟩
              · exact Or.inl h
              · exact Or.inr ⟨s, List.mem_cons_of_mem _ hs, hrest⟩
            · rw [i4 n]
              constructor
              · rintro (h | ⟨s, hs, hrest⟩)
                · exact Or.inl h
                · exact Or.inr ⟨s, List.mem_cons_of_mem _ hs, hrest⟩
              · rintro (h | ⟨s, hs, hsn, q, hq, hmq⟩)
                · exact Or.inl h
                · rcases List.mem_cons.mp hs with rfl | hs'
                  · exact absurd hmq (by simpa using List.find?_eq_none.mp hfind q hq)
                  · exact Or.inr ⟨s, hs', hsn, q, hq, hmq⟩
        | some p =>
            have hstep : analyticsStep html nh acc sig =
                (acc.1 ++ [⟨sig.name, sig.type, findEvidence html [p]⟩],
                 acc.2 ++ [sig.name]) := by
              unfold analyticsStep
              rw [if_neg hseen, hfind]
            rw [hstep]
            have hsync' : (acc.2 ++ [sig.name]) =
                (acc.1 ++ [(⟨sig.name, sig.type, findEvidence html [p]⟩ :
                  DetectedAnalytics)]).map (fun e => e.name) := by
              simp [hsync]
            obtain ⟨i1, i2, i3, i4⟩ := ih
              (acc.1 ++ [⟨sig.name, sig.type, findEvidence html [p]⟩],
               acc.2 ++ [sig.name]) hsync'
            refine ⟨i1, ?_, ?_, ?_⟩
            · intro hnd
              apply i2
              refine List.Nodup.append hnd (List.nodup_singleton _) ?_
              intro a ha1 ha2
              rw [List.mem_singleton.mp ha2] at ha1
              exact hseen (List.elem_iff.mpr ha1)
            · intro e he
              rcases i3 e he with h | ⟨s, hs, hrest⟩
              · rcases List.mem_append.mp h with h | h
                · exact Or.inl h
                · rw [List.mem_singleton.mp h]
                  exact Or.inr ⟨sig, List.mem_cons_self _ _, rfl, rfl, p, hfind, rfl⟩
              · exact Or.inr ⟨s, List.mem_cons_of_mem _ hs, hrest⟩
            · intro n
              rw [i4 n]
              constructor
              · rintro (⟨e, he, hen⟩ | ⟨s, hs, hsn, q, hq, hmq⟩)
                · rcases List.mem_append.mp he with h | h
                  · exact Or.inl ⟨e, h, hen⟩
                  · have he2 := List.mem_singleton.mp h
                    right
                    refine ⟨sig, List.mem_cons_self _ _, ?_, ?_⟩
                    · rw [← hen, he2]
                    · exact ⟨p, List.mem_of_find?_eq_some hfind,
                        by simpa using List.find?_some hfind⟩
                · exact Or.inr ⟨s, List.mem_cons_of_mem _ hs, hsn, q, hq, hmq⟩
              · rintro (⟨e, he, hen⟩ | ⟨s, hs, hsn, q, hq, hmq⟩)
                · exact Or.inl ⟨e, List.mem_append_left _ he, hen⟩
                · rcases List.mem_cons.mp hs with rfl | hs'
                  · exact Or.inl ⟨⟨s.name, s.type, findEvidence html [p]⟩,
                      List.mem_append_right _ (List.mem_singleton.mpr rfl), hsn⟩
                  · exact Or.inr ⟨s, hs', hsn, q, hq, hmq⟩

/-- C7: for non-blank HTML, `detectAnalytics` emits at most one entry per
signature name (names are unique), every emitted entry comes from a signature
of its name via the first of its rules matching the original-case page or its
lowercase copy (with evidence computed from that single rule against the
original-case page, and no confidence or version fields in the emitted
record), and a name is detected exactly when one of its signatures has a rule
matching either copy; in particular a page with two distinct `gtag(` calls
yields exactly one Google Analytics entry. -/
theorem C7_analytics (asigs : List AnalyticsSignature) (html : String)
    (h : strTrim html ≠ "") :
    ((detectAnalyticsWith asigs html).detected.map (fun e => e.name)).Nodup ∧
    (∀ e ∈ (detectAnalyticsWith asigs html).detected,
      ∃ sig ∈ asigs, e.name = sig.name ∧ e.type = sig.type ∧
        ∃ p, sig.patterns.find? (fun q =>
          matchesPattern html q || matchesPattern (strToLower html) q) = some p ∧
          e.evidence = findEvidence html [p]) ∧
    (∀ n, (∃ e ∈ (detectAnalyticsWith asigs html).detected, e.name = n) ↔
      ∃ sig ∈ asigs, sig.name = n ∧ ∃ p ∈ sig.patterns,
        (matchesPattern html p || matchesPattern (strToLower html) p) = true) ∧
    (detectAnalytics "<script>gtag(config, id1); gtag(config, id2);</script>").detected =
      [{ name := "Google Analytics", type := "analytics",
         evidence := some "gtag(" }] := by
  have hcond : (html == "" || strTrim html == "") = false := by
    by_cases he : html = ""
    · exact absurd (by rw [he]; rfl) h
    · simp [he, h]
  have hres : (detectAnalyticsWith asigs html).detected =
      (asigs.foldl (analyticsStep html (strToLower html)) ([], [])).1 := by
    simp [detectAnalyticsWith, hcond]
  obtain ⟨i1, i2, i3, i4⟩ :=
    analyticsFold_invariant html (strToLower html) asigs ([], []) rfl
  refine ⟨?_, ?_, ?_, ?_⟩
  · rw [hres, ← i1]
    exact i2 List.nodup_nil
  · intro e he
    rw [hres] at he
    rcases i3 e he with h | ⟨s, hs, hn, ht, hp⟩
    · cases h
    · exact ⟨s, hs, hn, ht, hp⟩
  · intro n
    rw [hres]
    rw [i4 n]
    simp
  · decide

/-- Witness for C7 on a concrete page. -/
theorem C7_analytics_w :
    strTrim "x" ≠ "" ∧
    ((detectAnalyticsWith analyticsSignatures "x").detected.map
      (fun e => e.name)).Nodup :=
  ⟨by decide, (C7_analytics analyticsSignatures "x" (by decide)).1⟩

/-- C10: on the page "GA.JS" the Google Analytics rule `/ga\.js/` matches
only the lowercased copy of the page, so the tool is detected, but
`findEvidence` runs against the original-case page only and finds nothing:
the emitted entry carries no evidence. -/
theorem C10_lowercase_only_no_evidence :
    (detectAnalytics "GA.JS").detected =
      [{ name := "Google Analytics", type := "analytics", evidence := none }] := by
  decide

end WSS

